import Mathlib

/-!
Verification of the Libra backward bias-analysis engine
(`src/libra/engine/backward.py`) against its specification.

The Python source is shallowly embedded: abstract-domain operations
(meet, assume, substitute, forget, bounding, the forward pre-analyzer)
are opaque parameters packed into context structures, while every piece
of control flow and arithmetic that the claims are about is translated
directly from the source.  Rationals stand for Python floats (the spec
reads "modulo floating-point"), `Finset` for Python sets, association
lists for Python dicts (whose insertion order matters for iteration),
and `Option`/sum-like results model uncaught exceptions.
-/

set_option maxHeartbeats 1600000

namespace Libra

/-! ## Section 1: the bias-check primitive (backward.py lines 322-379)

`bias_check(chunk, result, ranges, percent)` scans the ordered pairs of
entries of the `result` dictionary, detects bias witnesses, accumulates
the bounding box `b_ranges` of the witnesses, and finally adds
`percent * biased_size / total_size` to the global `biased` counter.
The embedding returns the amount added to the counter. -/

/-- Context of opaque operations used by `bias_check`.
`St` is the abstract `BiasState`, `Rep` the canonical textual
representation `repr(state.polka)`, `V` the variable identifiers.
`trivUnsat r` models `r.startswith('-1.0 >= 0') or r == '⊥'` (line 353,
negated there); `boundVar` models `polka.bound_variable` (line 357). -/
structure BCCtx (St Rep V : Type) where
  meet : St → St → St
  forget : List V → St → St
  assumeRange : St → V × (ℚ × ℚ) → St
  reprPolka : St → Rep
  trivUnsat : Rep → Bool
  boundVar : St → V → ℚ × ℚ
  uncontroversial1 : List (List V)
  uncontroversial2 : List V

/-- Lines 341-349: `deepcopy(val1).meet(val2)`, then forget every one-hot
uncontroversial encoding, then re-assume the current ranges box. -/
def processedInter {St Rep V : Type} (C : BCCtx St Rep V)
    (ranges : List (V × (ℚ × ℚ))) (val1 val2 : St) : St :=
  ranges.foldl C.assumeRange
    (C.uncontroversial1.foldl (fun s enc => C.forget enc s) (C.meet val1 val2))

/-- The mutable locals of `bias_check`: `nobias`, `biases`, `b_ranges`
(lines 330-332). -/
structure BAcc (Rep V : Type) where
  nobias : Bool
  biases : List Rep
  b_ranges : List (V × (ℚ × ℚ))

/-- Lines 360-364: fold the projected interval of one feature into
`b_ranges` (`min` of lower bounds, `max` of upper bounds; first
occurrence inserts). -/
def rangesUpdate {V : Type} [DecidableEq V]
    (br : List (V × (ℚ × ℚ))) (u : V) (lo hi : ℚ) : List (V × (ℚ × ℚ)) :=
  match br.find? (fun e => e.1 = u) with
  | some e => br.map (fun x => if x.1 = u then (x.1, (min lo e.2.1, max hi e.2.2)) else x)
  | none => br ++ [(u, (lo, hi))]

/-- Lines 356-364: update `b_ranges` for every custom-encoded
uncontroversial feature with the interval of the new witness. -/
def updateB {St Rep V : Type} [DecidableEq V] (C : BCCtx St Rep V)
    (inter : St) (br : List (V × (ℚ × ℚ))) : List (V × (ℚ × ℚ)) :=
  C.uncontroversial2.foldl
    (fun b u => rangesUpdate b u (C.boundVar inter u).1 (C.boundVar inter u).2) br

/-- Lines 341-367: handle one pair `(val1, val2)` of abstract states:
build the intersection, test its canonical form, record a fresh witness. -/
def visitPair {St Rep V : Type} [DecidableEq Rep] [DecidableEq V]
    (C : BCCtx St Rep V) (ranges : List (V × (ℚ × ℚ)))
    (acc : BAcc Rep V) (val1 val2 : St) : BAcc Rep V :=
  let inter := processedInter C ranges val1 val2
  let r := C.reprPolka inter
  if C.trivUnsat r then acc
  else if r ∈ acc.biases then { acc with nobias := false }
  else { nobias := false, biases := r :: acc.biases, b_ranges := updateB C inter acc.b_ranges }

/-- Lines 338-340: one ordered pair of `check` entries; the two nested
loops over `value1` and `value2` run only when both the output classes
and the sensitive values differ. -/
def visitValues {St Rep V Cls Sen : Type} [DecidableEq Rep] [DecidableEq V]
    [DecidableEq Cls] [DecidableEq Sen]
    (C : BCCtx St Rep V) (ranges : List (V × (ℚ × ℚ)))
    (acc : BAcc Rep V) (e1 e2 : (Cls × Sen) × List St) : BAcc Rep V :=
  if e1.1.1 ≠ e2.1.1 ∧ e1.1.2 ≠ e2.1.2 then
    e1.2.foldl (fun a v1 => e2.2.foldl (fun b v2 => visitPair C ranges b v1 v2) a) acc
  else acc

/-- Lines 334-337: iteration over the ordered pairs `i < j` of
`result.items()`. -/
def pairsFold {St Rep V Cls Sen : Type} [DecidableEq Rep] [DecidableEq V]
    [DecidableEq Cls] [DecidableEq Sen]
    (C : BCCtx St Rep V) (ranges : List (V × (ℚ × ℚ))) :
    List ((Cls × Sen) × List St) → BAcc Rep V → BAcc Rep V
  | [], acc => acc
  | x :: xs, acc => pairsFold C ranges xs (xs.foldl (fun a y => visitValues C ranges a x y) acc)

/-- Lines 371-376: `total_size` and `biased_size` are products of the
interval widths of an association list of ranges. -/
def widthProd {V : Type} (l : List (V × (ℚ × ℚ))) : ℚ :=
  l.foldl (fun p e => p * (e.2.2 - e.2.1)) 1

/-- Lines 322-379: the amount `bias_check` adds to the global `biased`
counter: `0` when `nobias` survives the scan, otherwise
`percent * biased_size / total_size`. -/
def bias_check {St Rep V Cls Sen : Type} [DecidableEq Rep] [DecidableEq V]
    [DecidableEq Cls] [DecidableEq Sen]
    (C : BCCtx St Rep V) (items : List ((Cls × Sen) × List St))
    (ranges : List (V × (ℚ × ℚ))) (percent : ℚ) : ℚ :=
  if (pairsFold C ranges items ⟨true, [], []⟩).nobias = true then 0
  else
    percent * widthProd (pairsFold C ranges items ⟨true, [], []⟩).b_ranges / widthProd ranges

/-- Declarative description of a bias witness arising from one ordered
pair of `check` entries: output classes differ, sensitive values differ,
and some pair of states has a non-trivially-unsatisfiable intersection. -/
def isWitnessPairB {St Rep V Cls Sen : Type} [DecidableEq Cls] [DecidableEq Sen]
    (C : BCCtx St Rep V) (ranges : List (V × (ℚ × ℚ)))
    (e1 e2 : (Cls × Sen) × List St) : Bool :=
  decide (e1.1.1 ≠ e2.1.1) && decide (e1.1.2 ≠ e2.1.2) &&
    e1.2.any (fun v1 => e2.2.any (fun v2 =>
      !(C.trivUnsat (C.reprPolka (processedInter C ranges v1 v2)))))

/-- Declarative search space of `bias_check`: some ordered pair `i < j`
of entries yields a witness. -/
def witnessExistsB {St Rep V Cls Sen : Type} [DecidableEq Cls] [DecidableEq Sen]
    (C : BCCtx St Rep V) (ranges : List (V × (ℚ × ℚ))) :
    List ((Cls × Sen) × List St) → Bool
  | [] => false
  | x :: xs => xs.any (fun y => isWitnessPairB C ranges x y) || witnessExistsB C ranges xs

/-- The `b_ranges` dictionary at the end of the scan of `bias_check`. -/
def finalBRanges {St Rep V Cls Sen : Type} [DecidableEq Rep] [DecidableEq V]
    [DecidableEq Cls] [DecidableEq Sen]
    (C : BCCtx St Rep V) (ranges : List (V × (ℚ × ℚ)))
    (items : List ((Cls × Sen) × List St)) : List (V × (ℚ × ℚ)) :=
  (pairsFold C ranges items ⟨true, [], []⟩).b_ranges

/-! ## Section 2: the feasibility oracle (backward.py lines 113-136)

`feasibility(state, manager, key, do)` iterates over the sensitive
values, runs the forward pre-analyzer and counts the remaining
disjunctive ReLUs; `analyze` of the precursory pre-analyzer is an
opaque oracle depending on the value index and the forced sets. -/

/-- Context for `feasibility`.  `oracle idx forced` is
`self.precursory.analyze(result, forced_active, forced_inactive)` for
the `idx`-th sensitive value (the analyzed state is a fresh deep copy of
the same `state` each iteration, so it is a function of the index). -/
structure FeasCtx (Val : Type) where
  activations : Finset ℕ
  widening : ℤ
  values : List Val
  oracle : ℕ → Option (Finset ℕ × Finset ℕ) → Finset ℕ × Finset ℕ

/-- Lines 127-128: `key[idx]` if a key was supplied, else no forced sets.
(In every call the supplied key has one entry per sensitive value, so
the out-of-range case of `k[idx]?` is unreachable.) -/
def forcedAt (key : Option (List (Finset ℕ × Finset ℕ))) (idx : ℕ) :
    Option (Finset ℕ × Finset ℕ) :=
  key.bind fun k => k[idx]?

/-- Line 130: `disjunctions = len(activations) - len(active) - len(inactive)`
for the `idx`-th sensitive value. -/
def dAt {Val : Type} (C : FeasCtx Val) (key : Option (List (Finset ℕ × Finset ℕ)))
    (idx : ℕ) : ℤ :=
  (C.activations.card : ℤ) - ((C.oracle idx (forcedAt key idx)).1.card : ℤ)
    - ((C.oracle idx (forcedAt key idx)).2.card : ℤ)

/-- Line 135: the pattern entry `(value, frozenset(active), frozenset(inactive))`
appended for the `idx`-th sensitive value. -/
def patAt {Val : Type} (C : FeasCtx Val) (key : Option (List (Finset ℕ × Finset ℕ)))
    (idx : ℕ) (v : Val) : Val × Finset ℕ × Finset ℕ :=
  (v, (C.oracle idx (forcedAt key idx)).1, (C.oracle idx (forcedAt key idx)).2)

/-- Lines 125-135: the `for idx, value in enumerate(self.values)` loop,
carrying `feasible`, `patterns` and the last `disjunctions`. -/
def feasAux {Val : Type} (C : FeasCtx Val) (key : Option (List (Finset ℕ × Finset ℕ)))
    (doFlag : Bool) :
    ℕ → List Val → Bool → List (Val × Finset ℕ × Finset ℕ) → ℤ →
      Bool × List (Val × Finset ℕ × Finset ℕ) × ℤ
  | _, [], feasible, pats, disj => (feasible, pats, disj)
  | idx, v :: rest, feasible, pats, _disj =>
      if C.widening < dAt C key idx then
        if doFlag then
          feasAux C key doFlag (idx + 1) rest false (pats ++ [patAt C key idx v]) (dAt C key idx)
        else (false, pats, dAt C key idx)
      else
        feasAux C key doFlag (idx + 1) rest feasible (pats ++ [patAt C key idx v]) (dAt C key idx)

/-- Lines 113-136: `feasibility`; `disjunctions` starts at
`len(self.activations)` (line 124), `feasible` at `True`, `patterns`
empty. -/
def feasibility {Val : Type} (C : FeasCtx Val)
    (key : Option (List (Finset ℕ × Finset ℕ))) (doFlag : Bool) :
    Bool × List (Val × Finset ℕ × Finset ℕ) × ℤ :=
  feasAux C key doFlag 0 C.values true [] (C.activations.card : ℤ)

/-- The patterns accumulated for a prefix of the sensitive values,
starting at index `idx`. -/
def patsFrom {Val : Type} (C : FeasCtx Val) (key : Option (List (Finset ℕ × Finset ℕ))) :
    ℕ → List Val → List (Val × Finset ℕ × Finset ℕ)
  | _, [] => []
  | idx, v :: rest => patAt C key idx v :: patsFrom C key (idx + 1) rest

/-! ## Section 3: the backward traverser (backward.py lines 381-440)
and the ReLU semantics (lines 683-705)

Every CFG node has a unique predecessor
(`self.cfg.predecessors(node).pop()`), so the traversed control-flow
path is a chain, embedded as a list whose head is the current node.
Activation nodes carry a numeric id used for membership in the
`active` / `inactive` sets. -/

/-- A CFG node as discriminated by `from_node`: an affine `Function`
node (whose statement is an assignment `lhs := rhs`), an `Activation`
(ReLU) node, or any other node. -/
inductive CNode (A : Type) where
  | fn (lhs rhs : A)
  | act (id : ℕ) (stmt : A)
  | other

/-- Opaque operations on the polyhedral component of a `BiasState`.
`consGeq h` is the polyhedron for the half-plane `h ≥ 0` built on lines
692-694; `consNegGt h` the one for `-h > 0` built on lines 698-702;
`substZero p h` is `p.substitute(h, 0)` (line 704); `substStmt` is the
affine substitution of `list_semantics` (line 686). -/
structure PolkaOps (P A : Type) where
  meet : P → P → P
  substStmt : A → A → P → P
  substZero : P → A → P
  consGeq : A → P
  consNegGt : A → P
  isBot : P → Bool
  join : P → P → P

/-- Lines 689-705 (`BiasBackwardSemantics.ReLU_call_semantics`): on the
active branch meet with `h ≥ 0`; on the inactive branch substitute
`h := 0` and meet with `-h > 0`. -/
def ReLU_call_semantics {P A : Type} (Ops : PolkaOps P A) (stmt : A) (p : P)
    (active : Bool) : P :=
  if active then Ops.meet p (Ops.consGeq stmt)
  else Ops.meet (Ops.substZero p stmt) (Ops.consNegGt stmt)

/-- Lines 685-687 (`BiasBackwardSemantics.list_semantics`): the affine
backward substitution. -/
def list_semantics {P A : Type} (Ops : PolkaOps P A) (lhs rhs : A) (p : P) : P :=
  Ops.substStmt lhs rhs p

/-- Context of the backward traversal: the domain operations and the
forced `active` / `inactive` activation sets of the current pattern. -/
structure TravCtx (P A : Type) where
  ops : PolkaOps P A
  active : Finset ℕ
  inactive : Finset ℕ

/-- Lines 381-440: `from_node(node, initial, join)`, yielding the lazy
stream of abstract states as a list (`none` models `yield None`).  The
chain is the node followed by its unique-predecessor path; an empty
tail means the node has no predecessors. -/
def from_node {P A : Type} (C : TravCtx P A) :
    List (CNode A) → P → Bool → List (Option P)
  | [], _, _ => []
  | CNode.fn lhs rhs :: rest, s, jn =>
      let s1 := list_semantics C.ops lhs rhs s
      if C.ops.isBot s1 then [none]
      else if rest.isEmpty then [some s1]
      else from_node C rest s1 jn
  | CNode.act i stmt :: rest, s, jn =>
      if i ∈ C.active then
        let s1 := ReLU_call_semantics C.ops stmt s true
        if C.ops.isBot s1 then [none] else from_node C rest s1 jn
      else if i ∈ C.inactive then
        let s2 := ReLU_call_semantics C.ops stmt s false
        if C.ops.isBot s2 then [none] else from_node C rest s2 jn
      else
        let s1 := ReLU_call_semantics C.ops stmt s true
        let s2 := ReLU_call_semantics C.ops stmt s false
        if jn then from_node C rest (C.ops.join s1 s2) jn
        else if C.ops.isBot s1 then
          if C.ops.isBot s2 then [none] else from_node C rest s2 jn
        else
          from_node C rest s1 jn ++
            (if C.ops.isBot s2 then [none] else from_node C rest s2 jn)
  | CNode.other :: rest, s, jn =>
      if rest.isEmpty then [some s] else from_node C rest s jn

/-- Number of disjunctive ReLUs on a path: activation nodes forced
neither active nor inactive. -/
def disjCount {P A : Type} (C : TravCtx P A) : List (CNode A) → ℕ
  | [] => 0
  | CNode.act i _ :: rest =>
      (if i ∈ C.active ∨ i ∈ C.inactive then 0 else 1) + disjCount C rest
  | CNode.fn _ _ :: rest => disjCount C rest
  | CNode.other :: rest => disjCount C rest

/-! ## Section 4: the Worker-1 percent accounting (backward.py lines 205-319)

The pre-analysis workers pop a task carrying a `percent` and either
record it as feasible (lines 241-262), 1-hot split it into per-pack
tasks of `percent * len(pack) / count` (lines 265-288), repost it
unchanged when the pivot feature is exhausted (lines 293-299), bisect it
into two `percent / 2` halves (lines 300-311), or abandon it into the
`explored` counter (lines 312-319).  Only the percent bookkeeping is
relevant to the conservation invariant, so a state is the multiset of
pending task percents together with the two accumulated sums. -/

/-- Percent view of the Worker-1 system: the pending queue contents and
the two counters fed by finished chunks. -/
structure W1State where
  pending : Multiset ℚ
  feasibleSum : ℚ
  abandonedSum : ℚ

/-- Line 287: the percents `percent * len(pack) / self.count` posted for
the packs of a 1-hot split. -/
def splitPercents (p : ℚ) (count : ℕ) (packSizes : List ℕ) : Multiset ℚ :=
  (packSizes.map (fun k : ℕ => p * (k : ℚ) / (count : ℚ)) : List ℚ)

/-- One Worker-1 transition on the percent view.  `oneHotSplit` carries
the packing post-condition `Σ|pack| = count` asserted on line 194 and
the positivity of `count` (`count` is a product of the one-hot group
arities, and is the divisor on line 287). -/
inductive W1Step : W1State → W1State → Prop where
  | feasibleChunk (s : W1State) (p : ℚ) (hp : p ∈ s.pending) :
      W1Step s ⟨s.pending.erase p, s.feasibleSum + p, s.abandonedSum⟩
  | oneHotSplit (s : W1State) (p : ℚ) (packSizes : List ℕ) (count : ℕ)
      (hp : p ∈ s.pending) (hsum : packSizes.sum = count) (hpos : 0 < count) :
      W1Step s ⟨s.pending.erase p + splitPercents p count packSizes,
                s.feasibleSum, s.abandonedSum⟩
  | exhaustedRepost (s : W1State) (p : ℚ) (hp : p ∈ s.pending) :
      W1Step s ⟨s.pending.erase p + {p}, s.feasibleSum, s.abandonedSum⟩
  | rangeBisect (s : W1State) (p : ℚ) (hp : p ∈ s.pending) :
      W1Step s ⟨s.pending.erase p + {p / 2, p / 2}, s.feasibleSum, s.abandonedSum⟩
  | abandonChunk (s : W1State) (p : ℚ) (hp : p ∈ s.pending) :
      W1Step s ⟨s.pending.erase p, s.feasibleSum, s.abandonedSum + p⟩

/-- Line 598: the initial queue holds the single task covering 100% of
the input space. -/
def W1Init : W1State := ⟨{100}, 0, 0⟩

/-! ## Section 5: the Stage-B refinement branch (backward.py lines 289-311)

An infeasible task with `pivot1 = |uncontroversial1|` is refined on the
real-valued features: the pivot feature is bisected, or dropped from
`splittable` when its range is narrower than `difference`. -/

/-- A Q1 partition task `(assumptions, pivot1, unpacked, ranges, pivot2,
splittable, percent, key)` (line 214).  `assumptions`, `unpacked` and
`key` are opaque to Stage B. -/
structure Task (α β V κ : Type) where
  assumptions : α
  pivot1 : ℕ
  unpacked : β
  ranges : List (V × (ℚ × ℚ))
  pivot2 : ℕ
  splittable : List V
  percent : ℚ
  key : Option κ

/-- Line 291-292: `dict(ranges)[feature]` (ranges have pairwise distinct
features, so the first hit is the dict entry). -/
def rangesLookup {V : Type} [DecidableEq V] (l : List (V × (ℚ × ℚ))) (v : V) :
    Option (ℚ × ℚ) :=
  (l.find? (fun e => e.1 = v)).map (fun e => e.2)

/-- Lines 303-306: update one feature's interval in the box, keeping the
dictionary order. -/
def rangesSet {V : Type} [DecidableEq V] (l : List (V × (ℚ × ℚ))) (v : V)
    (b : ℚ × ℚ) : List (V × (ℚ × ℚ)) :=
  l.map (fun e => if e.1 = v then (e.1, b) else e)

/-- Outcome of the `else` branch of Worker-1 for a task that already
passed 1-hot splitting: tasks posted back to Q1, the chunk abandoned
into `explored`, or an uncaught exception. -/
inductive StageBResult (T : Type) where
  | post (ts : List T)
  | abandon
  | err

/-- Lines 289-319: the Stage-B state machine.  `err` arises from
`uncontroversial2[pivot2]` out of range, a feature missing from the
ranges dict, or `splittable.remove(f)` on an absent feature
(`list.remove` raises `ValueError`). -/
def worker1StageB {α β V κ : Type} [DecidableEq V] (uncontroversial2 : List V)
    (difference : ℚ) (t : Task α β V κ) : StageBResult (Task α β V κ) :=
  if uncontroversial2 ≠ [] ∧ t.splittable ≠ [] then
    match uncontroversial2[t.pivot2]? with
    | none => StageBResult.err
    | some f =>
        match rangesLookup t.ranges f with
        | none => StageBResult.err
        | some (lower, upper) =>
            if upper - lower ≤ difference then
              if f ∈ t.splittable then
                StageBResult.post
                  [{ t with pivot2 := (t.pivot2 + 1) % uncontroversial2.length,
                            splittable := t.splittable.erase f, key := none }]
              else StageBResult.err
            else
              StageBResult.post
                [{ t with ranges := rangesSet t.ranges f (lower, lower + (upper - lower) / 2),
                          pivot2 := (t.pivot2 + 1) % uncontroversial2.length,
                          percent := t.percent / 2, key := none },
                 { t with ranges := rangesSet t.ranges f (lower + (upper - lower) / 2, upper),
                          pivot2 := (t.pivot2 + 1) % uncontroversial2.length,
                          percent := t.percent / 2, key := none }]
  else StageBResult.abandon

/-! ## Section 6: the pattern compressor (backward.py lines 618-638)

Activation-pattern keys are tuples of `(active, inactive)` pairs of
frozensets of nodes, one per sensitive value; packs are sets of chunks.
The compressed dict is an insertion-ordered association list: merge-1
updates in place, merge-2 deletes `key2` and appends the entry re-keyed
under `key1` at the end (a fresh dict key). -/

/-- An activation-pattern key: per sensitive value, the forced
`(active, inactive)` node sets. -/
abbrev PKey := List (Finset ℕ × Finset ℕ)

/-- Lines 623-627 (one direction): position-wise inclusion of the forced
sets.  `subsumesB a b` is `mergeable` with `a` in the role of the looser
key: every `(active, inactive)` pair of `a` is contained in the
corresponding pair of `b`. -/
def subsumesB (a b : PKey) : Bool :=
  (a.zip b).all (fun pq => decide (pq.1.1 ⊆ pq.2.1) && decide (pq.1.2 ⊆ pq.2.2))

/-- Lines 621-636: scan the compressed dict for the first key comparable
with `key1`; `none` means no match (`unmerged`).  Merge-1
(`compressed[key2] |= pack1`) keeps `key2` in place; merge-2 re-keys the
union under `key1`, which lands at the end of the dict order. -/
def scanMerge {χ : Type} [DecidableEq χ] (key1 : PKey) (pack1 : Finset χ) :
    List (PKey × Finset χ) → Option (List (PKey × Finset χ))
  | [] => none
  | (key2, pack2) :: rest =>
      if subsumesB key2 key1 then some ((key2, pack2 ∪ pack1) :: rest)
      else if subsumesB key1 key2 then some (rest ++ [(key1, pack2 ∪ pack1)])
      else (scanMerge key1 pack1 rest).map (fun r => (key2, pack2) :: r)

/-- Lines 619-638: the outer loop over the (sorted) pattern entries. -/
def compressLoop {χ : Type} [DecidableEq χ] :
    List (PKey × Finset χ) → List (PKey × Finset χ) → List (PKey × Finset χ)
  | [], compressed => compressed
  | (key1, pack1) :: todo, compressed =>
      match scanMerge key1 pack1 compressed with
      | some c => compressLoop todo c
      | none => compressLoop todo (compressed ++ [(key1, pack1)])

/-- Line 619: patterns are processed in ascending order of pack size. -/
def compress {χ : Type} [DecidableEq χ] (patterns : List (PKey × Finset χ)) :
    List (PKey × Finset χ) :=
  compressLoop (patterns.mergeSort (fun a b => decide (a.2.card ≤ b.2.card))) []

/-- The union of all chunk sets of a patterns dictionary. -/
def packUnion {χ : Type} [DecidableEq χ] (l : List (PKey × Finset χ)) : Finset χ :=
  l.foldr (fun e acc => e.2 ∪ acc) ∅

/-! ## Section 7: specification parsing at the start of `analyze`
(backward.py lines 523-575)

The file is modeled as the list of its lines with surrounding whitespace
already stripped (the source calls `.strip()` on every `readline()`).
`readline()` past the end of the file returns the empty string, which is
mirrored by padding with `""`.  A `none` result models an uncaught
exception during startup: `ValueError` from `int()` on the very first
arity line, or `IndexError` from `self.sensitive[0]` (line 535) when the
sensitive arity is not positive. -/

/-- Digit-string accumulator for `pyInt`. -/
def parseNatAux : List Char → ℕ → Option ℕ
  | [], acc => some acc
  | c :: cs, acc =>
      if c.isDigit then parseNatAux cs (acc * 10 + (c.toNat - 48)) else none

/-- Python's `int()` on an already-stripped string: an optional sign
followed by at least one decimal digit. -/
def pyInt (s : String) : Option ℤ :=
  match s.data with
  | [] => none
  | c :: cs =>
      if c = '-' then
        match cs with
        | [] => none
        | _ :: _ => (parseNatAux cs 0).map (fun n => -(n : ℤ))
      else if c = '+' then
        match cs with
        | [] => none
        | _ :: _ => (parseNatAux cs 0).map (fun n => (n : ℤ))
      else (parseNatAux (c :: cs) 0).map (fun n => (n : ℤ))

/-- Fueled worker for `readGroups`: every loop iteration consumes at
least the arity line, so the number of remaining lines bounds the number
of iterations and serves as structural fuel (the zero-fuel case is
unreachable when the fuel starts at the number of lines). -/
def readGroupsAux : ℕ → List String → List (List String) × List String
  | _, [] => ([], [])
  | 0, _ :: ls => ([], ls)
  | fuel + 1, l :: ls =>
      match pyInt l with
      | none => ([], ls)
      | some a =>
          let g := ls.take a.toNat ++ List.replicate (a.toNat - ls.length) ""
          let p := readGroupsAux fuel (ls.drop a.toNat)
          (g :: p.1, p.2)

/-- Lines 546-555: the one-hot group loop.  Each iteration reads an
arity line; a line that is not an integer (including the empty string
returned at end of file) raises `ValueError`, which is caught and
breaks the loop.  Returns the groups and the lines left unread. -/
def readGroups (ls : List String) : List (List String) × List String :=
  readGroupsAux ls.length ls

/-- The configuration assembled by the startup phase of `analyze`. -/
structure SpecCfg where
  sensitive : List String
  uncontroversial1 : List (List String)
  uncontroversial2 : Finset String
  count : ℕ
deriving DecidableEq

/-- Lines 523-575: read the sensitive feature, the one-hot groups, and
derive the custom-encoded features as
`inputs - set(sensitive) - set(chain(*uncontroversial1))` (line 567)
and `count` as the product of the group arities (line 556). -/
def parseSpec (inputs : Finset String) (lines : List String) : Option SpecCfg :=
  match lines with
  | [] => none
  | l :: ls =>
      match pyInt l with
      | none => none
      | some a =>
          let sens := ls.take a.toNat ++ List.replicate (a.toNat - ls.length) ""
          if sens.isEmpty then none
          else
            let gs := (readGroups (ls.drop a.toNat)).1
            some { sensitive := sens
                   uncontroversial1 := gs
                   uncontroversial2 :=
                     inputs \ (sens.toFinset ∪ gs.foldr (fun g acc => g.toFinset ∪ acc) ∅)
                   count := (gs.map List.length).prod }

/-! ## Concrete fixtures used by the witness theorems -/

/-- A tiny concrete `bias_check` context with no uncontroversial
features; every intersection representation is satisfiable. -/
def BCC0 : BCCtx Unit ℕ ℕ :=
  { meet := fun _ _ => ()
    forget := fun _ s => s
    assumeRange := fun s _ => s
    reprPolka := fun _ => 0
    trivUnsat := fun _ => false
    boundVar := fun _ _ => (0, 0)
    uncontroversial1 := []
    uncontroversial2 := [] }

/-- Two `check` entries differing in both output class and sensitive
value, each with one abstract state. -/
def items0 : List ((Bool × Bool) × List Unit) :=
  [((true, true), [()]), ((false, false), [()])]

/-- A tiny concrete feasibility context: three activation nodes,
widening 0, two sensitive values; the first value leaves one ReLU
disjunctive. -/
def FeasC0 : FeasCtx ℕ :=
  { activations := {0, 1, 2}
    widening := 0
    values := [7, 8]
    oracle := fun idx _ => if idx = 0 then ({0}, {1}) else (∅, ∅) }

/-- A tiny concrete traversal context on states in ℕ: activation node 0
is forced active, node 1 forced inactive, nothing is ever bottom. -/
def TC0 : TravCtx ℕ Unit :=
  { ops :=
      { meet := fun p q => p + q
        substStmt := fun _ _ p => p
        substZero := fun p _ => p
        consGeq := fun _ => 1
        consNegGt := fun _ => 2
        isBot := fun _ => false
        join := fun p q => p + q }
    active := {0}
    inactive := {1} }

/-- A concrete Stage-B task: one real feature `5` whose interval
`[0, 1]` is narrower than the `difference` threshold `2`. -/
def Task0 : Task ℕ ℕ ℕ ℕ :=
  { assumptions := 0
    pivot1 := 1
    unpacked := 0
    ranges := [(5, ((0 : ℚ), (1 : ℚ)))]
    pivot2 := 0
    splittable := [5]
    percent := 50
    key := none }

/-- A concrete patterns dictionary: the key of the second entry
subsumes the key of the first. -/
def pats0 : List (PKey × Finset ℕ) :=
  [([({0}, {1})], {0}), ([(∅, ∅)], {1})]

/-- A concrete inputs set for the specification-parsing fixtures. -/
def inputs0 : Finset String := {"a"}

/-- A concrete specification file: sensitive arity 1 and a sensitive
variable "zzz" that does not occur in `inputs0`. -/
def lines0 : List String := ["1", "zzz"]

/-! # Theorems -/

/-! ## Boolean fold helpers -/

theorem notAnyEq {α : Type} (l : List α) (p : α → Bool) :
    (!(l.any p)) = l.all (fun x => !(p x)) := by
  induction l with
  | nil => simp
  | cons x xs ih => simp [Bool.not_or, ih]

theorem notAnyNot {α : Type} (l : List α) (p : α → Bool) :
    (!(l.any fun x => !(p x))) = l.all p := by
  induction l with
  | nil => simp
  | cons x xs ih => simp [Bool.not_or, ih]

theorem notAnyAnyNot {α β : Type} (l1 : List α) (l2 : List β) (p : α → β → Bool) :
    (!(l1.any fun x => l2.any fun y => !(p x y)))
      = l1.all (fun x => l2.all fun y => p x y) := by
  induction l1 with
  | nil => simp
  | cons x xs ih => simp [Bool.not_or, ih, notAnyNot]

/-! ## The `nobias` flag of the bias-check scan is exactly the negation
of the declarative witness search -/

variable {St Rep V Cls Sen : Type}

theorem visitPair_nobias [DecidableEq Rep] [DecidableEq V]
    (C : BCCtx St Rep V) (ranges : List (V × (ℚ × ℚ))) (acc : BAcc Rep V) (v1 v2 : St) :
    (visitPair C ranges acc v1 v2).nobias
      = (acc.nobias && C.trivUnsat (C.reprPolka (processedInter C ranges v1 v2))) := by
  unfold visitPair
  by_cases h : C.trivUnsat (C.reprPolka (processedInter C ranges v1 v2)) = true
  · simp [h]
  · simp only [Bool.not_eq_true] at h
    by_cases h2 : C.reprPolka (processedInter C ranges v1 v2) ∈ acc.biases <;>
      simp [h, h2]

theorem foldlPair_nobias [DecidableEq Rep] [DecidableEq V]
    (C : BCCtx St Rep V) (ranges : List (V × (ℚ × ℚ))) (l2 : List St)
    (a : BAcc Rep V) (v1 : St) :
    (l2.foldl (fun b v2 => visitPair C ranges b v1 v2) a).nobias
      = (a.nobias &&
          l2.all (fun v2 => C.trivUnsat (C.reprPolka (processedInter C ranges v1 v2)))) := by
  induction l2 generalizing a with
  | nil => simp
  | cons x xs ih => simp [ih, visitPair_nobias, Bool.and_assoc]

theorem foldlPair2_nobias [DecidableEq Rep] [DecidableEq V]
    (C : BCCtx St Rep V) (ranges : List (V × (ℚ × ℚ))) (l1 l2 : List St)
    (a : BAcc Rep V) :
    (l1.foldl (fun a v1 => l2.foldl (fun b v2 => visitPair C ranges b v1 v2) a) a).nobias
      = (a.nobias && l1.all (fun v1 =>
          l2.all (fun v2 => C.trivUnsat (C.reprPolka (processedInter C ranges v1 v2))))) := by
  induction l1 generalizing a with
  | nil => simp
  | cons x xs ih => simp [ih, foldlPair_nobias, Bool.and_assoc]

theorem visitValues_nobias [DecidableEq Rep] [DecidableEq V] [DecidableEq Cls] [DecidableEq Sen]
    (C : BCCtx St Rep V) (ranges : List (V × (ℚ × ℚ))) (a : BAcc Rep V)
    (e1 e2 : (Cls × Sen) × List St) :
    (visitValues C ranges a e1 e2).nobias
      = (a.nobias && !(isWitnessPairB C ranges e1 e2)) := by
  unfold visitValues isWitnessPairB
  by_cases h : e1.1.1 ≠ e2.1.1 ∧ e1.1.2 ≠ e2.1.2
  · simp [h, h.1, h.2, foldlPair2_nobias, notAnyAnyNot]
  · rw [Classical.not_and_iff_or_not_not] at h
    rcases h with h | h <;> simp only [ne_eq, Classical.not_not] at h <;>
      simp [h]

theorem foldlValues_nobias [DecidableEq Rep] [DecidableEq V] [DecidableEq Cls] [DecidableEq Sen]
    (C : BCCtx St Rep V) (ranges : List (V × (ℚ × ℚ)))
    (xs : List ((Cls × Sen) × List St)) (x : (Cls × Sen) × List St) (a : BAcc Rep V) :
    (xs.foldl (fun a y => visitValues C ranges a x y) a).nobias
      = (a.nobias && xs.all (fun y => !(isWitnessPairB C ranges x y))) := by
  induction xs generalizing a with
  | nil => simp
  | cons y ys ih => simp [ih, visitValues_nobias, Bool.and_assoc]

theorem pairsFold_nobias [DecidableEq Rep] [DecidableEq V] [DecidableEq Cls] [DecidableEq Sen]
    (C : BCCtx St Rep V) (ranges : List (V × (ℚ × ℚ)))
    (items : List ((Cls × Sen) × List St)) (a : BAcc Rep V) :
    (pairsFold C ranges items a).nobias
      = (a.nobias && !(witnessExistsB C ranges items)) := by
  induction items generalizing a with
  | nil => simp [pairsFold, witnessExistsB]
  | cons x xs ih =>
      simp [pairsFold, witnessExistsB, ih, foldlValues_nobias,
        Bool.not_or, notAnyEq, Bool.and_assoc]

/-- Claim C1: in `bias_check`, a witness is searched exactly over the
ordered pairs `i < j` of entries of the check dictionary whose output
classes differ and whose sensitive values differ; when at least one
witness is found, the amount added to the global `biased` counter is
`percent` times the product of the `b_ranges` interval widths divided by
the product of the `ranges` interval widths, and when no witness is
found nothing is added. -/
theorem C1_bias_check_pairs [DecidableEq Rep] [DecidableEq V] [DecidableEq Cls] [DecidableEq Sen]
    (C : BCCtx St Rep V) (items : List ((Cls × Sen) × List St))
    (ranges : List (V × (ℚ × ℚ))) (percent : ℚ) :
    bias_check C items ranges percent
      = if witnessExistsB C ranges items = true
        then percent * widthProd (finalBRanges C ranges items) / widthProd ranges
        else 0 := by
  unfold bias_check finalBRanges
  have h := pairsFold_nobias C ranges items ⟨true, [], []⟩
  by_cases hw : witnessExistsB C ranges items = true <;> simp [hw] at h ⊢ <;> simp [h]

/-! ## The `b_ranges` dictionary is empty when there are no real-valued
uncontroversial features -/

theorem visitPair_branges_nil [DecidableEq Rep] [DecidableEq V]
    (C : BCCtx St Rep V) (h2 : C.uncontroversial2 = [])
    (ranges : List (V × (ℚ × ℚ))) (acc : BAcc Rep V) (v1 v2 : St) :
    (visitPair C ranges acc v1 v2).b_ranges = acc.b_ranges := by
  unfold visitPair updateB
  rw [h2]
  dsimp only
  split
  · rfl
  · split <;> rfl

theorem foldlPair_branges_nil [DecidableEq Rep] [DecidableEq V]
    (C : BCCtx St Rep V) (h2 : C.uncontroversial2 = [])
    (ranges : List (V × (ℚ × ℚ))) (l2 : List St) (a : BAcc Rep V) (v1 : St) :
    (l2.foldl (fun b v2 => visitPair C ranges b v1 v2) a).b_ranges = a.b_ranges := by
  induction l2 generalizing a with
  | nil => simp
  | cons x xs ih => simp [ih, visitPair_branges_nil C h2]

theorem foldlPair2_branges_nil [DecidableEq Rep] [DecidableEq V]
    (C : BCCtx St Rep V) (h2 : C.uncontroversial2 = [])
    (ranges : List (V × (ℚ × ℚ))) (l1 l2 : List St) (a : BAcc Rep V) :
    (l1.foldl (fun a v1 => l2.foldl (fun b v2 => visitPair C ranges b v1 v2) a) a).b_ranges
      = a.b_ranges := by
  induction l1 generalizing a with
  | nil => simp
  | cons x xs ih => simp [ih, foldlPair_branges_nil C h2]

theorem visitValues_branges_nil [DecidableEq Rep] [DecidableEq V] [DecidableEq Cls] [DecidableEq Sen]
    (C : BCCtx St Rep V) (h2 : C.uncontroversial2 = [])
    (ranges : List (V × (ℚ × ℚ))) (a : BAcc Rep V) (e1 e2 : (Cls × Sen) × List St) :
    (visitValues C ranges a e1 e2).b_ranges = a.b_ranges := by
  unfold visitValues
  split
  · exact foldlPair2_branges_nil C h2 ranges _ _ _
  · rfl

theorem foldlValues_branges_nil [DecidableEq Rep] [DecidableEq V] [DecidableEq Cls] [DecidableEq Sen]
    (C : BCCtx St Rep V) (h2 : C.uncontroversial2 = [])
    (ranges : List (V × (ℚ × ℚ))) (xs : List ((Cls × Sen) × List St))
    (x : (Cls × Sen) × List St) (a : BAcc Rep V) :
    (xs.foldl (fun a y => visitValues C ranges a x y) a).b_ranges = a.b_ranges := by
  induction xs generalizing a with
  | nil => simp
  | cons y ys ih => simp [ih, visitValues_branges_nil C h2]

theorem pairsFold_branges_nil [DecidableEq Rep] [DecidableEq V] [DecidableEq Cls] [DecidableEq Sen]
    (C : BCCtx St Rep V) (h2 : C.uncontroversial2 = [])
    (ranges : List (V × (ℚ × ℚ))) (items : List ((Cls × Sen) × List St)) (a : BAcc Rep V) :
    (pairsFold C ranges items a).b_ranges = a.b_ranges := by
  induction items generalizing a with
  | nil => rfl
  | cons x xs ih => simp [pairsFold, ih, foldlValues_branges_nil C h2]

/-- Claim C10: when the ranges mapping is empty (no real-valued
uncontroversial features), both the total volume and the biased volume
in `bias_check` are empty products equal to 1, so any single witness
makes the chunk contribute its entire `percent` to the global biased
counter. -/
theorem C10_empty_ranges_full_percent
    [DecidableEq Rep] [DecidableEq V] [DecidableEq Cls] [DecidableEq Sen]
    (C : BCCtx St Rep V) (items : List ((Cls × Sen) × List St)) (percent : ℚ)
    (h2 : C.uncontroversial2 = [])
    (hw : witnessExistsB C ([] : List (V × (ℚ × ℚ))) items = true) :
    widthProd (finalBRanges C ([] : List (V × (ℚ × ℚ))) items) = 1 ∧
    widthProd ([] : List (V × (ℚ × ℚ))) = 1 ∧
    bias_check C items ([] : List (V × (ℚ × ℚ))) percent = percent := by
  have hb := pairsFold_branges_nil C h2 ([] : List (V × (ℚ × ℚ))) items ⟨true, [], []⟩
  have hn := pairsFold_nobias C ([] : List (V × (ℚ × ℚ))) items ⟨true, [], []⟩
  refine ⟨?_, rfl, ?_⟩
  · unfold finalBRanges
    rw [hb]
    rfl
  · unfold bias_check
    rw [hb] at *
    simp [hw] at hn
    rw [hn]
    simp [widthProd]

/-- Witness for C10 at a concrete context: two entries differing in both
coordinates, one state each, every representation satisfiable. -/
theorem C10_witness :
    BCC0.uncontroversial2 = [] ∧
    witnessExistsB BCC0 ([] : List (ℕ × (ℚ × ℚ))) items0 = true ∧
    bias_check BCC0 items0 ([] : List (ℕ × (ℚ × ℚ))) 25 = 25 :=
  ⟨rfl, by decide,
    (C10_empty_ranges_full_percent BCC0 items0 25 rfl (by decide)).2.2⟩

/-! ## Feasibility: the `feasible` flag and the early abort -/

theorem feasAux_fst_iff {Val : Type} (C : FeasCtx Val)
    (key : Option (List (Finset ℕ × Finset ℕ))) (doFlag : Bool) (l : List Val)
    (idx : ℕ) (feasible : Bool) (pats : List (Val × Finset ℕ × Finset ℕ)) (disj : ℤ) :
    (feasAux C key doFlag idx l feasible pats disj).1 = true ↔
      (feasible = true ∧ ∀ j < l.length, dAt C key (idx + j) ≤ C.widening) := by
  induction l generalizing idx feasible pats disj with
  | nil => simp [feasAux]
  | cons v rest ih =>
      simp only [feasAux]
      by_cases hd : C.widening < dAt C key idx
      · rw [if_pos hd]
        by_cases hdo : doFlag = true
        · rw [if_pos hdo, ih]
          simp
          exact fun _ => ⟨0, Nat.succ_pos _, by simpa using hd⟩
        · rw [if_neg hdo]
          simp
          exact fun _ => ⟨0, Nat.succ_pos _, by simpa using hd⟩
      · rw [if_neg hd, ih]
        constructor
        · rintro ⟨hf, hall⟩
          refine ⟨hf, fun j hj => ?_⟩
          cases j with
          | zero => simpa using not_lt.mp hd
          | succ j =>
              have hj2 : j < rest.length := by simp at hj; omega
              have := hall j hj2
              have e : idx + 1 + j = idx + (j + 1) := by omega
              rw [e] at this
              exact this
        · rintro ⟨hf, hall⟩
          refine ⟨hf, fun j hj => ?_⟩
          have := hall (j + 1) (by simp; omega)
          have e : idx + 1 + j = idx + (j + 1) := by omega
          rw [e]
          exact this

theorem feasAux_break {Val : Type} (C : FeasCtx Val)
    (key : Option (List (Finset ℕ × Finset ℕ))) (k : ℕ) :
    ∀ (l : List Val) (idx : ℕ) (feasible : Bool)
      (pats : List (Val × Finset ℕ × Finset ℕ)) (disj : ℤ),
      k < l.length → C.widening < dAt C key (idx + k) →
      (∀ j < k, dAt C key (idx + j) ≤ C.widening) →
      feasAux C key false idx l feasible pats disj
        = (false, pats ++ patsFrom C key idx (l.take k), dAt C key (idx + k)) := by
  induction k with
  | zero =>
      intro l idx feasible pats disj hlen hviol _hok
      cases l with
      | nil => simp at hlen
      | cons v rest =>
          simp only [feasAux]
          rw [if_pos (by simpa using hviol)]
          simp [patsFrom]
  | succ k ih =>
      intro l idx feasible pats disj hlen hviol hok
      cases l with
      | nil => simp at hlen
      | cons v rest =>
          have h0 : dAt C key idx ≤ C.widening := by
            have := hok 0 (Nat.succ_pos _)
            simpa using this
          simp only [feasAux]
          rw [if_neg (not_lt.mpr h0)]
          have hlen2 : k < rest.length := by simp at hlen; omega
          have e1 : idx + 1 + k = idx + (k + 1) := by omega
          have hviol2 : C.widening < dAt C key (idx + 1 + k) := by rw [e1]; exact hviol
          have hok2 : ∀ j < k, dAt C key (idx + 1 + j) ≤ C.widening := by
            intro j hj
            have e2 : idx + 1 + j = idx + (j + 1) := by omega
            rw [e2]
            exact hok (j + 1) (by omega)
          rw [ih rest (idx + 1) feasible (pats ++ [patAt C key idx v]) (dAt C key idx)
              hlen2 hviol2 hok2]
          simp [patsFrom, e1]

/-- Claim C2: for every input state and every (possibly absent)
forced-activation key, `feasibility` returns `True` as its first
component iff for every sensitive value `v` the count
`d = |activations| - |active_v| - |inactive_v|` satisfies
`d ≤ widening`; and when some `d` exceeds `widening` and `do` is
`False`, it stops analyzing further sensitive values and returns
`(False, the patterns computed so far, that d)`. -/
theorem C2_feasibility {Val : Type} (C : FeasCtx Val)
    (key : Option (List (Finset ℕ × Finset ℕ))) (doFlag : Bool) (k : ℕ) :
    ((feasibility C key doFlag).1 = true ↔
        ∀ i < C.values.length, dAt C key i ≤ C.widening) ∧
    (doFlag = false → k < C.values.length → C.widening < dAt C key k →
      (∀ j < k, dAt C key j ≤ C.widening) →
      feasibility C key false
        = (false, patsFrom C key 0 (C.values.take k), dAt C key k)) := by
  constructor
  · unfold feasibility
    rw [feasAux_fst_iff]
    simp
  · intro _hdo hk hviol hok
    unfold feasibility
    have := feasAux_break C key k C.values 0 true [] (C.activations.card : ℤ) hk
      (by simpa using hviol) (by simpa using hok)
    simpa using this

/-- Witness for C2 at `FeasC0`: the first sensitive value leaves
`3 - 1 - 1 = 1 > 0 = widening` disjunctions, so with `do = False` the
loop aborts at index 0 with no patterns recorded. -/
theorem C2_witness : feasibility FeasC0 none false = (false, [], 1) := by
  have h := (C2_feasibility FeasC0 none false 0).2 rfl (by decide) (by decide)
    (by intro j hj; omega)
  rw [h]
  decide

/-! ## The backward traverser at activation nodes -/

/-- Claim C3: for every activation (ReLU) node visited by `from_node`:
if the node is in the active set the state is met with the half-plane
`h ≥ 0` and traversal recurses on the unique predecessor; if it is in
the inactive set the state has `h` substituted by 0 and is met with
`-h > 0`, then recurses; if it is in neither set and `join` is false,
both branch states are computed from (deep copies of) the incoming
state and the traversal recurses on — and yields the streams of —
every branch whose state is not bottom. -/
theorem C3_from_node_relu {P A : Type} (C : TravCtx P A) (i : ℕ) (stmt : A)
    (rest : List (CNode A)) (s : P) :
    (i ∈ C.active →
      from_node C (CNode.act i stmt :: rest) s false
        = (if C.ops.isBot (C.ops.meet s (C.ops.consGeq stmt)) = true then [none]
           else from_node C rest (C.ops.meet s (C.ops.consGeq stmt)) false)) ∧
    (i ∉ C.active → i ∈ C.inactive →
      from_node C (CNode.act i stmt :: rest) s false
        = (if C.ops.isBot (C.ops.meet (C.ops.substZero s stmt) (C.ops.consNegGt stmt)) = true
           then [none]
           else from_node C rest
             (C.ops.meet (C.ops.substZero s stmt) (C.ops.consNegGt stmt)) false)) ∧
    (i ∉ C.active → i ∉ C.inactive →
      (from_node C (CNode.act i stmt :: rest) s false).filterMap id
        = (if C.ops.isBot (ReLU_call_semantics C.ops stmt s true) = true then []
           else (from_node C rest (ReLU_call_semantics C.ops stmt s true) false).filterMap id)
          ++ (if C.ops.isBot (ReLU_call_semantics C.ops stmt s false) = true then []
              else (from_node C rest
                (ReLU_call_semantics C.ops stmt s false) false).filterMap id)) := by
  refine ⟨?_, ?_, ?_⟩
  · intro ha
    simp [from_node, ha, ReLU_call_semantics]
  · intro ha hi
    simp [from_node, ha, hi, ReLU_call_semantics]
  · intro ha hi
    simp only [from_node, ha, hi, if_false, ite_false, Bool.false_eq_true]
    by_cases h1 : C.ops.isBot (ReLU_call_semantics C.ops stmt s true) = true
    · by_cases h2 : C.ops.isBot (ReLU_call_semantics C.ops stmt s false) = true
      · simp [h1, h2]
      · simp [h1, h2]
    · by_cases h2 : C.ops.isBot (ReLU_call_semantics C.ops stmt s false) = true
      · simp [h1, h2, List.filterMap_append]
      · simp [h1, h2, List.filterMap_append]

/-- Witness for C3 at `TC0`: node 0 is active, the meet with the
half-plane adds 1, and the predecessor is a terminal pass-through node. -/
theorem C3_witness : from_node TC0 [CNode.act 0 (), CNode.other] 5 false = [some 6] := by
  have h := (C3_from_node_relu TC0 0 () [CNode.other] 5).1 (by decide)
  rw [h]
  decide

/-- Claim C4: on every finite acyclic path, `from_node` with
`join = false` is a total function (termination), and the number of
non-bottom states it yields is at most `2 ^ d` where `d` is the number
of activation nodes on the traversed path that are in neither the
active nor the inactive set. -/
theorem C4_from_node_bound {P A : Type} (C : TravCtx P A) (chain : List (CNode A)) (s : P) :
    ((from_node C chain s false).filterMap id).length ≤ 2 ^ disjCount C chain := by
  induction chain generalizing s with
  | nil => simp [from_node, disjCount]
  | cons node rest ih =>
      cases node with
      | fn lhs rhs =>
          simp only [from_node, disjCount]
          by_cases hb : C.ops.isBot (list_semantics C.ops lhs rhs s) = true
          · simp [hb]
          · simp only [hb, Bool.false_eq_true, if_false]
            by_cases he : rest.isEmpty
            · simp [he, Nat.one_le_two_pow]
            · simp only [he, Bool.false_eq_true, if_false]
              exact ih _
      | act i stmt =>
          by_cases ha : i ∈ C.active
          · have hd0 : disjCount C (CNode.act i stmt :: rest) = disjCount C rest := by
              simp [disjCount, ha]
            rw [hd0]
            by_cases hb : C.ops.isBot (ReLU_call_semantics C.ops stmt s true) = true
            · simp [from_node, ha, hb]
            · simp only [from_node]
              rw [if_pos ha]
              rw [if_neg hb]
              exact ih _
          · by_cases hi : i ∈ C.inactive
            · have hd0 : disjCount C (CNode.act i stmt :: rest) = disjCount C rest := by
                simp [disjCount, hi]
              rw [hd0]
              by_cases hb : C.ops.isBot (ReLU_call_semantics C.ops stmt s false) = true
              · simp [from_node, ha, hi, hb]
              · simp only [from_node]
                rw [if_neg ha, if_pos hi]
                rw [if_neg hb]
                exact ih _
            · have hd : disjCount C (CNode.act i stmt :: rest) = 1 + disjCount C rest := by
                simp [disjCount, ha, hi]
              rw [hd]
              simp only [from_node, ha, hi, if_false, ite_false, Bool.false_eq_true]
              by_cases h1 : C.ops.isBot (ReLU_call_semantics C.ops stmt s true) = true
              · by_cases h2 : C.ops.isBot (ReLU_call_semantics C.ops stmt s false) = true
                · simp [h1, h2]
                · simp only [h1, h2, if_true, ite_true, if_false, ite_false, Bool.false_eq_true]
                  calc ((from_node C rest (ReLU_call_semantics C.ops stmt s false)
                          false).filterMap id).length
                      ≤ 2 ^ disjCount C rest := ih _
                    _ ≤ 2 ^ (1 + disjCount C rest) :=
                        Nat.pow_le_pow_right (by omega) (by omega)
              · by_cases h2 : C.ops.isBot (ReLU_call_semantics C.ops stmt s false) = true
                · simp only [h1, h2, if_true, ite_true, if_false, ite_false, Bool.false_eq_true,
                    List.filterMap_append]
                  simp only [List.filterMap, List.length_append]
                  calc ((from_node C rest (ReLU_call_semantics C.ops stmt s true)
                            false).filterMap id).length + 0
                      ≤ 2 ^ disjCount C rest := by simpa using ih _
                    _ ≤ 2 ^ (1 + disjCount C rest) :=
                        Nat.pow_le_pow_right (by omega) (by omega)
                · simp only [h1, h2, if_false, ite_false, Bool.false_eq_true,
                    List.filterMap_append, List.length_append]
                  calc ((from_node C rest (ReLU_call_semantics C.ops stmt s true)
                            false).filterMap id).length
                        + ((from_node C rest (ReLU_call_semantics C.ops stmt s false)
                            false).filterMap id).length
                      ≤ 2 ^ disjCount C rest + 2 ^ disjCount C rest :=
                        Nat.add_le_add (ih _) (ih _)
                    _ = 2 ^ (1 + disjCount C rest) := by
                        rw [pow_add, pow_one, two_mul]
      | other =>
          simp only [from_node, disjCount]
          by_cases he : rest.isEmpty
          · simp [he, Nat.one_le_two_pow]
          · simp only [he, Bool.false_eq_true, if_false]
            exact ih _

/-! ## Worker-1 percent conservation -/

theorem splitPercents_sum (p : ℚ) (count : ℕ) (packSizes : List ℕ)
    (hsum : packSizes.sum = count) (hpos : 0 < count) :
    (splitPercents p count packSizes).sum = p := by
  unfold splitPercents
  rw [Multiset.sum_coe]
  have h : (fun k : ℕ => p * (k : ℚ) / (count : ℚ)) = fun k : ℕ => (k : ℚ) * (p / count) := by
    funext k
    field_simp
    ring
  rw [h, List.sum_map_mul_right, ← Nat.cast_list_sum, hsum]
  field_simp

theorem erase_sum {s : Multiset ℚ} {p : ℚ} (hp : p ∈ s) :
    s.sum = p + (s.erase p).sum := by
  conv_lhs => rw [← Multiset.cons_erase hp]
  simp

theorem W1Step_total (s t : W1State) (h : W1Step s t) :
    t.pending.sum + t.feasibleSum + t.abandonedSum
      = s.pending.sum + s.feasibleSum + s.abandonedSum := by
  cases h with
  | feasibleChunk p hp =>
      dsimp only
      rw [erase_sum hp]
      ring
  | oneHotSplit p packSizes count hp hsum hpos =>
      dsimp only
      rw [Multiset.sum_add, splitPercents_sum p count packSizes hsum hpos, erase_sum hp]
      ring
  | exhaustedRepost p hp =>
      dsimp only
      rw [Multiset.sum_add, Multiset.sum_singleton, erase_sum hp]
      ring
  | rangeBisect p hp =>
      dsimp only
      have hs : ({p / 2, p / 2} : Multiset ℚ).sum = p := by
        simp [Multiset.insert_eq_cons]
      rw [Multiset.sum_add, hs, erase_sum hp]
      ring
  | abandonChunk p hp =>
      dsimp only
      rw [erase_sum hp]
      ring

/-- Claim C5: for every execution of the Worker-1 partition state
machine starting from the single initial task with percent 100, the sum
of the pending percents plus the percents of all chunks recorded as
feasible plus all percent increments added to `explored` for abandoned
chunks stays 100; in particular when the queue drains, feasible plus
abandoned percents equal 100.  A 1-hot split distributes
`percent * |pack| / count` over packs whose sizes sum to `count`, a
range bisection replaces one task of percent `p` by two tasks of `p / 2`
each, and the exhausted-feature repost keeps the percent unchanged. -/
theorem C5_percent_conservation (s : W1State)
    (h : Relation.ReflTransGen W1Step W1Init s) :
    s.pending.sum + s.feasibleSum + s.abandonedSum = 100 ∧
    (s.pending = 0 → s.feasibleSum + s.abandonedSum = 100) := by
  have key : s.pending.sum + s.feasibleSum + s.abandonedSum = 100 := by
    induction h with
    | refl => simp [W1Init]
    | tail _hab hbc ih =>
        rw [W1Step_total _ _ hbc]
        exact ih
  refine ⟨key, fun hp => ?_⟩
  rw [hp] at key
  simpa using key

/-- Witness for C5: abandoning the initial task in one step reaches a
drained queue whose sums still total 100. -/
theorem C5_witness :
    (W1Init.pending.erase 100).sum + W1Init.feasibleSum + (W1Init.abandonedSum + 100) = 100 := by
  have hstep : W1Step W1Init
      ⟨W1Init.pending.erase 100, W1Init.feasibleSum, W1Init.abandonedSum + 100⟩ :=
    W1Step.abandonChunk W1Init 100 (by simp [W1Init])
  exact (C5_percent_conservation _ (Relation.ReflTransGen.single hstep)).1

/-! ## Stage B: exhausted pivot feature -/

/-- Claim C7: for every Stage-B task whose pivot feature
`f = uncontroversial2[pivot2]` has range width
`upper - lower ≤ difference`, Worker-1 posts the same chunk (same
assumptions, unpacked, ranges and percent) with `pivot2` advanced
round-robin modulo `|uncontroversial2|` and with `splittable` strictly
shrunken by the removal of `f`. -/
theorem C7_stageB_exhausted {α β V κ : Type} [DecidableEq V]
    (uncontroversial2 : List V) (difference : ℚ) (t : Task α β V κ)
    (f : V) (lower upper : ℚ)
    (hf : uncontroversial2[t.pivot2]? = some f)
    (hr : rangesLookup t.ranges f = some (lower, upper))
    (hw : upper - lower ≤ difference)
    (hmem : f ∈ t.splittable) :
    worker1StageB uncontroversial2 difference t
      = StageBResult.post
          [{ t with pivot2 := (t.pivot2 + 1) % uncontroversial2.length,
                    splittable := t.splittable.erase f, key := none }] ∧
    (t.splittable.erase f).length < t.splittable.length := by
  constructor
  · have hne1 : uncontroversial2 ≠ [] := by
      rintro rfl
      simp at hf
    have hne2 : t.splittable ≠ [] := List.ne_nil_of_mem hmem
    unfold worker1StageB
    rw [if_pos ⟨hne1, hne2⟩, hf]
    dsimp only
    rw [hr]
    dsimp only
    rw [if_pos hw, if_pos hmem]
  · have h1 := List.length_erase_of_mem hmem
    have h2 : 0 < t.splittable.length := List.length_pos.mpr (List.ne_nil_of_mem hmem)
    omega

/-- Witness for C7 at `Task0`: with `difference = 2` the pivot feature 5
is exhausted, so the task is reposted with `pivot2` advanced and
`splittable` emptied while assumptions, unpacked, ranges and percent are
untouched. -/
theorem C7_witness :
    worker1StageB [5] (2 : ℚ) Task0
      = StageBResult.post
          [{ Task0 with pivot2 := (Task0.pivot2 + 1) % ([5] : List ℕ).length,
                        splittable := Task0.splittable.erase 5, key := none }] ∧
    (Task0.splittable.erase 5).length < Task0.splittable.length :=
  C7_stageB_exhausted [5] 2 Task0 5 0 1 rfl rfl (by norm_num) (by decide)

/-! ## Pattern compression -/

theorem subsumesB_refl (a : PKey) : subsumesB a a = true := by
  induction a with
  | nil => rfl
  | cons x xs ih =>
      simp only [subsumesB, List.zip_cons_cons, List.all_cons, Bool.and_eq_true,
        decide_eq_true_eq]
      exact ⟨⟨Finset.Subset.refl _, Finset.Subset.refl _⟩, ih⟩

theorem subsumesB_trans (a b c : PKey) (h1 : a.length = b.length)
    (h2 : b.length = c.length)
    (hab : subsumesB a b = true) (hbc : subsumesB b c = true) : subsumesB a c = true := by
  induction a generalizing b c with
  | nil =>
      unfold subsumesB
      simp
  | cons x a2 ih =>
      cases b with
      | nil => simp at h1
      | cons y b2 =>
          cases c with
          | nil => simp at h2
          | cons z c2 =>
              simp only [subsumesB, List.zip_cons_cons, List.all_cons, Bool.and_eq_true,
                decide_eq_true_eq] at hab hbc ⊢
              refine ⟨⟨hab.1.1.trans hbc.1.1, hab.1.2.trans hbc.1.2⟩, ?_⟩
              have e1 : a2.length = b2.length := by simpa using h1
              have e2 : b2.length = c2.length := by simpa using h2
              exact ih b2 c2 e1 e2 hab.2 hbc.2

theorem scanMerge_length {χ : Type} [DecidableEq χ] (key1 : PKey) (pack1 : Finset χ)
    (c c' : List (PKey × Finset χ)) (h : scanMerge key1 pack1 c = some c') :
    c'.length = c.length := by
  induction c generalizing c' with
  | nil => simp [scanMerge] at h
  | cons e0 rest ih =>
      obtain ⟨key2, pack2⟩ := e0
      simp only [scanMerge] at h
      by_cases h1 : subsumesB key2 key1 = true
      · rw [if_pos h1] at h
        obtain rfl := Option.some.inj h
        simp
      · rw [if_neg h1] at h
        by_cases h2 : subsumesB key1 key2 = true
        · rw [if_pos h2] at h
          obtain rfl := Option.some.inj h
          simp
        · rw [if_neg h2] at h
          cases hm : scanMerge key1 pack1 rest with
          | none => rw [hm] at h; simp at h
          | some r =>
              rw [hm] at h
              simp only [Option.map_some'] at h
              obtain rfl := Option.some.inj h
              simp [ih r hm]

theorem scanMerge_keylen {χ : Type} [DecidableEq χ] (n : ℕ) (key1 : PKey) (pack1 : Finset χ)
    (c c' : List (PKey × Finset χ)) (h : scanMerge key1 pack1 c = some c')
    (hk : key1.length = n) (hc : ∀ e ∈ c, e.1.length = n) :
    ∀ e ∈ c', e.1.length = n := by
  induction c generalizing c' with
  | nil => simp [scanMerge] at h
  | cons e0 rest ih =>
      obtain ⟨key2, pack2⟩ := e0
      simp only [scanMerge] at h
      by_cases h1 : subsumesB key2 key1 = true
      · rw [if_pos h1] at h
        obtain rfl := Option.some.inj h
        intro e he
        rcases List.mem_cons.mp he with rfl | he2
        · exact hc (key2, pack2) (List.mem_cons_self _ _)
        · exact hc e (List.mem_cons_of_mem _ he2)
      · rw [if_neg h1] at h
        by_cases h2 : subsumesB key1 key2 = true
        · rw [if_pos h2] at h
          obtain rfl := Option.some.inj h
          intro e he
          rcases List.mem_append.mp he with he2 | he2
          · exact hc e (List.mem_cons_of_mem _ he2)
          · obtain rfl := List.mem_singleton.mp he2
            exact hk
        · rw [if_neg h2] at h
          cases hm : scanMerge key1 pack1 rest with
          | none => rw [hm] at h; simp at h
          | some r =>
              rw [hm] at h
              simp only [Option.map_some'] at h
              obtain rfl := Option.some.inj h
              intro e he
              rcases List.mem_cons.mp he with rfl | he2
              · exact hc _ (List.mem_cons_self _ _)
              · exact ih r hm (fun e2 he3 => hc e2 (List.mem_cons_of_mem _ he3)) e he2

theorem scanMerge_rep {χ : Type} [DecidableEq χ] (n : ℕ) (key1 : PKey) (pack1 : Finset χ)
    (c c' : List (PKey × Finset χ)) (h : scanMerge key1 pack1 c = some c')
    (hk : key1.length = n) (hc : ∀ e ∈ c, e.1.length = n) :
    (∀ k0 : PKey, k0.length = n →
        (∃ e ∈ c, subsumesB e.1 k0 = true) → ∃ e2 ∈ c', subsumesB e2.1 k0 = true) ∧
    (∃ e2 ∈ c', subsumesB e2.1 key1 = true) := by
  induction c generalizing c' with
  | nil => simp [scanMerge] at h
  | cons e0 rest ih =>
      obtain ⟨key2, pack2⟩ := e0
      simp only [scanMerge] at h
      by_cases h1 : subsumesB key2 key1 = true
      · rw [if_pos h1] at h
        obtain rfl := Option.some.inj h
        constructor
        · intro k0 hk0 hex
          obtain ⟨e, he, hs⟩ := hex
          rcases List.mem_cons.mp he with rfl | he2
          · exact ⟨(key2, pack2 ∪ pack1), List.mem_cons_self _ _, hs⟩
          · exact ⟨e, List.mem_cons_of_mem _ he2, hs⟩
        · exact ⟨(key2, pack2 ∪ pack1), List.mem_cons_self _ _, h1⟩
      · rw [if_neg h1] at h
        by_cases h2 : subsumesB key1 key2 = true
        · rw [if_pos h2] at h
          obtain rfl := Option.some.inj h
          have hkey2 : key2.length = n := hc (key2, pack2) (List.mem_cons_self _ _)
          constructor
          · intro k0 hk0 hex
            obtain ⟨e, he, hs⟩ := hex
            rcases List.mem_cons.mp he with rfl | he2
            · refine ⟨(key1, pack2 ∪ pack1),
                List.mem_append_right _ (List.mem_singleton_self _), ?_⟩
              exact subsumesB_trans key1 key2 k0 (by omega) (by omega) h2 hs
            · exact ⟨e, List.mem_append_left _ he2, hs⟩
          · exact ⟨(key1, pack2 ∪ pack1),
              List.mem_append_right _ (List.mem_singleton_self _), subsumesB_refl key1⟩
        · rw [if_neg h2] at h
          cases hm : scanMerge key1 pack1 rest with
          | none => rw [hm] at h; simp at h
          | some r =>
              rw [hm] at h
              simp only [Option.map_some'] at h
              obtain rfl := Option.some.inj h
              have IH := ih r hm (fun e2 he3 => hc e2 (List.mem_cons_of_mem _ he3))
              constructor
              · intro k0 hk0 hex
                obtain ⟨e, he, hs⟩ := hex
                rcases List.mem_cons.mp he with rfl | he2
                · exact ⟨(key2, pack2), List.mem_cons_self _ _, hs⟩
                · obtain ⟨e2, he2r, hs2⟩ := IH.1 k0 hk0 ⟨e, he2, hs⟩
                  exact ⟨e2, List.mem_cons_of_mem _ he2r, hs2⟩
              · obtain ⟨e2, he2r, hs2⟩ := IH.2
                exact ⟨e2, List.mem_cons_of_mem _ he2r, hs2⟩

theorem compressLoop_cons_some {χ : Type} [DecidableEq χ] (k : PKey) (p : Finset χ)
    (todo comp c : List (PKey × Finset χ)) (hm : scanMerge k p comp = some c) :
    compressLoop ((k, p) :: todo) comp = compressLoop todo c := by
  simp only [compressLoop]
  rw [hm]

theorem compressLoop_cons_none {χ : Type} [DecidableEq χ] (k : PKey) (p : Finset χ)
    (todo comp : List (PKey × Finset χ)) (hm : scanMerge k p comp = none) :
    compressLoop ((k, p) :: todo) comp = compressLoop todo (comp ++ [(k, p)]) := by
  simp only [compressLoop]
  rw [hm]

theorem compressLoop_length {χ : Type} [DecidableEq χ]
    (todo comp : List (PKey × Finset χ)) :
    (compressLoop todo comp).length ≤ comp.length + todo.length := by
  induction todo generalizing comp with
  | nil => simp [compressLoop]
  | cons e0 todo2 ih =>
      obtain ⟨k, p⟩ := e0
      cases hm : scanMerge k p comp with
      | some c =>
          rw [compressLoop_cons_some k p todo2 comp c hm]
          have h1 := ih c
          have h2 := scanMerge_length k p comp c hm
          simp only [List.length_cons]
          omega
      | none =>
          rw [compressLoop_cons_none k p todo2 comp hm]
          have h1 := ih (comp ++ [(k, p)])
          simp only [List.length_append, List.length_cons, List.length_nil] at h1
          simp only [List.length_cons]
          omega

theorem compressLoop_rep {χ : Type} [DecidableEq χ] (n : ℕ)
    (todo comp : List (PKey × Finset χ))
    (hc : ∀ e ∈ comp, e.1.length = n) (ht : ∀ e ∈ todo, e.1.length = n) :
    (∀ k0 : PKey, k0.length = n →
        (∃ e ∈ comp, subsumesB e.1 k0 = true) →
        ∃ e2 ∈ compressLoop todo comp, subsumesB e2.1 k0 = true) ∧
    (∀ e ∈ todo, ∃ e2 ∈ compressLoop todo comp, subsumesB e2.1 e.1 = true) := by
  induction todo generalizing comp with
  | nil =>
      constructor
      · intro k0 _hk0 hex
        exact hex
      · intro e he
        simp at he
  | cons e0 todo2 ih =>
      obtain ⟨k, p⟩ := e0
      have hklen : k.length = n := ht (k, p) (List.mem_cons_self _ _)
      have ht2 : ∀ e ∈ todo2, e.1.length = n := fun e he => ht e (List.mem_cons_of_mem _ he)
      cases hm : scanMerge k p comp with
      | some c =>
          rw [compressLoop_cons_some k p todo2 comp c hm]
          have hckeys := scanMerge_keylen n k p comp c hm hklen hc
          have hrep := scanMerge_rep n k p comp c hm hklen hc
          have IH := ih c hckeys ht2
          constructor
          · intro k0 hk0 hex
            exact IH.1 k0 hk0 (hrep.1 k0 hk0 hex)
          · intro e he
            rcases List.mem_cons.mp he with rfl | he2
            · exact IH.1 k hklen hrep.2
            · exact IH.2 e he2
      | none =>
          rw [compressLoop_cons_none k p todo2 comp hm]
          have hc2 : ∀ e ∈ comp ++ [(k, p)], e.1.length = n := by
            intro e he
            rcases List.mem_append.mp he with he2 | he2
            · exact hc e he2
            · obtain rfl := List.mem_singleton.mp he2
              exact hklen
          have IH := ih (comp ++ [(k, p)]) hc2 ht2
          constructor
          · intro k0 hk0 hex
            obtain ⟨e, he, hs⟩ := hex
            exact IH.1 k0 hk0 ⟨e, List.mem_append_left _ he, hs⟩
          · intro e he
            rcases List.mem_cons.mp he with rfl | he2
            · exact IH.1 k hklen
                ⟨(k, p), List.mem_append_right _ (List.mem_singleton_self _), subsumesB_refl k⟩
            · exact IH.2 e he2

/-- Claim C6: pattern compression never increases the number of
patterns — the compressed dictionary has at most as many entries as the
patterns dictionary — and every pre-compression pattern key is
represented by some post-compression key that subsumes it, i.e. whose
active and inactive sets are position-wise subsets of the represented
key's sets.  (`n` is the common key length, one entry per sensitive
value.) -/
theorem C6_compression_monotone {χ : Type} [DecidableEq χ] (n : ℕ)
    (patterns : List (PKey × Finset χ)) (hn : ∀ e ∈ patterns, e.1.length = n) :
    (compress patterns).length ≤ patterns.length ∧
    ∀ e ∈ patterns, ∃ e2 ∈ compress patterns, subsumesB e2.1 e.1 = true := by
  have hperm := List.mergeSort_perm patterns (fun a b => decide (a.2.card ≤ b.2.card))
  unfold compress
  constructor
  · have h1 := compressLoop_length
      (patterns.mergeSort (fun a b => decide (a.2.card ≤ b.2.card))) []
    have h2 := hperm.length_eq
    simp only [List.length_nil, Nat.zero_add] at h1
    omega
  · intro e he
    have hsort : ∀ e2 ∈ patterns.mergeSort (fun a b => decide (a.2.card ≤ b.2.card)),
        e2.1.length = n := fun e2 he2 => hn e2 (hperm.mem_iff.mp he2)
    have IH := compressLoop_rep n
      (patterns.mergeSort (fun a b => decide (a.2.card ≤ b.2.card))) []
      (by intro e2 he2; simp at he2) hsort
    exact IH.2 e (hperm.mem_iff.mpr he)

/-- Witness for C6 at `pats0`: two single-position keys, the second
subsuming the first. -/
theorem C6_witness :
    (∀ e ∈ pats0, e.1.length = 1) ∧
    ((compress pats0).length ≤ pats0.length ∧
      ∀ e ∈ pats0, ∃ e2 ∈ compress pats0, subsumesB e2.1 e.1 = true) :=
  ⟨by decide, C6_compression_monotone 1 pats0 (by decide)⟩

/-! ## Compression loses no chunk -/

theorem packUnion_nil {χ : Type} [DecidableEq χ] :
    packUnion ([] : List (PKey × Finset χ)) = ∅ := rfl

theorem packUnion_cons {χ : Type} [DecidableEq χ] (e : PKey × Finset χ)
    (l : List (PKey × Finset χ)) :
    packUnion (e :: l) = e.2 ∪ packUnion l := rfl

theorem packUnion_append {χ : Type} [DecidableEq χ] (l1 l2 : List (PKey × Finset χ)) :
    packUnion (l1 ++ l2) = packUnion l1 ∪ packUnion l2 := by
  induction l1 with
  | nil => simp [packUnion_nil, packUnion]
  | cons e l ih =>
      simp only [List.cons_append, packUnion_cons, ih, Finset.union_assoc]

theorem scanMerge_union {χ : Type} [DecidableEq χ] (key1 : PKey) (pack1 : Finset χ)
    (c c' : List (PKey × Finset χ)) (h : scanMerge key1 pack1 c = some c') :
    packUnion c' = packUnion c ∪ pack1 := by
  induction c generalizing c' with
  | nil => simp [scanMerge] at h
  | cons e0 rest ih =>
      obtain ⟨key2, pack2⟩ := e0
      simp only [scanMerge] at h
      by_cases h1 : subsumesB key2 key1 = true
      · rw [if_pos h1] at h
        obtain rfl := Option.some.inj h
        simp only [packUnion_cons]
        ext a
        simp
        try tauto
      · rw [if_neg h1] at h
        by_cases h2 : subsumesB key1 key2 = true
        · rw [if_pos h2] at h
          obtain rfl := Option.some.inj h
          rw [packUnion_append]
          simp only [packUnion_cons, packUnion_nil]
          ext a
          simp
          try tauto
        · rw [if_neg h2] at h
          cases hm : scanMerge key1 pack1 rest with
          | none => rw [hm] at h; simp at h
          | some r =>
              rw [hm] at h
              simp only [Option.map_some'] at h
              obtain rfl := Option.some.inj h
              simp only [packUnion_cons, ih r hm]
              ext a
              simp
              try tauto

theorem compressLoop_union {χ : Type} [DecidableEq χ]
    (todo comp : List (PKey × Finset χ)) :
    packUnion (compressLoop todo comp) = packUnion comp ∪ packUnion todo := by
  induction todo generalizing comp with
  | nil => simp [compressLoop, packUnion_nil]
  | cons e0 todo2 ih =>
      obtain ⟨k, p⟩ := e0
      cases hm : scanMerge k p comp with
      | some c =>
          rw [compressLoop_cons_some k p todo2 comp c hm, ih c,
            scanMerge_union k p comp c hm, packUnion_cons]
          ext a
          simp
          try tauto
      | none =>
          rw [compressLoop_cons_none k p todo2 comp hm, ih (comp ++ [(k, p)]),
            packUnion_append, packUnion_cons]
          simp only [packUnion_cons, packUnion_nil]
          ext a
          simp
          try tauto

theorem packUnion_perm {χ : Type} [DecidableEq χ] (l1 l2 : List (PKey × Finset χ))
    (h : l1.Perm l2) : packUnion l1 = packUnion l2 := by
  induction h with
  | nil => rfl
  | cons x _ ih => simp only [packUnion_cons, ih]
  | swap x y l =>
      simp only [packUnion_cons]
      ext a
      simp
      try tauto
  | trans _ _ ih1 ih2 => rw [ih1, ih2]

/-- Claim C9: pattern compression loses no chunk — the union of all
chunk sets in the compressed dictionary equals the union of all chunk
sets in the pre-compression patterns dictionary (merge-1 unions the
incoming pack into the kept entry, merge-2 re-keys the union of both
packs under the new key, and unmerged keys are inserted with their pack
unchanged). -/
theorem C9_compression_lossless {χ : Type} [DecidableEq χ]
    (patterns : List (PKey × Finset χ)) :
    packUnion (compress patterns) = packUnion patterns := by
  unfold compress
  rw [compressLoop_union,
    packUnion_perm _ _ (List.mergeSort_perm patterns (fun a b => decide (a.2.card ≤ b.2.card))),
    packUnion_nil, Finset.empty_union]

/-! ## Startup behaviour on unknown specification variables -/

/-- Counterexample to claim C8 as stated: the specification `lines0`
names the variable "zzz", which is not in the inputs set `inputs0`, yet
`analyze` does not fail at startup — parsing succeeds, and the unknown
variable is silently excluded from the real-valued features. -/
theorem C8_counterexample :
    "zzz" ∉ inputs0 ∧
    parseSpec inputs0 lines0
      = some { sensitive := ["zzz"], uncontroversial1 := [],
               uncontroversial2 := {"a"}, count := 1 } := by
  constructor
  · decide
  · decide

/-- Claim C8, amended: if the specification file names a variable that
is not in the inputs set, `analyze` does not fail at startup; whenever
the sensitive-arity line parses as a positive integer, startup succeeds
regardless of which variables the specification names, and every
unknown variable is merely excluded from the configuration — the
real-valued features `uncontroversial2` are always a subset of
`inputs`. -/
theorem C8_unknown_variable_silent (inputs : Finset String) (l : String)
    (ls : List String) (k : ℤ) (hk : pyInt l = some k) (hpos : 1 ≤ k) :
    (parseSpec inputs (l :: ls)).isSome = true ∧
    ∀ c, parseSpec inputs (l :: ls) = some c → c.uncontroversial2 ⊆ inputs := by
  have hlen : (ls.take k.toNat ++ List.replicate (k.toNat - ls.length) "").length = k.toNat := by
    simp only [List.length_append, List.length_take, List.length_replicate]
    omega
  have hne : (ls.take k.toNat ++ List.replicate (k.toNat - ls.length) "").isEmpty = false := by
    rcases h0 : ls.take k.toNat ++ List.replicate (k.toNat - ls.length) "" with _ | _
    · rw [h0] at hlen
      simp at hlen
      omega
    · rfl
  unfold parseSpec
  dsimp only
  rw [hk]
  dsimp only
  rw [hne]
  simp only [Bool.false_eq_true, if_false]
  constructor
  · rfl
  · intro c hc
    have := Option.some.inj hc
    rw [← this]
    exact Finset.sdiff_subset

/-- Witness for the amended C8 at the concrete fixture: arity line "1",
spec variable "zzz" outside `inputs0`. -/
theorem C8_amended_witness :
    (parseSpec inputs0 lines0).isSome = true ∧
    ∀ c, parseSpec inputs0 lines0 = some c → c.uncontroversial2 ⊆ inputs0 :=
  C8_unknown_variable_silent inputs0 "1" ["zzz"] 1 (by decide) (by decide)

end Libra
